import Mathlib

/-!
Verification of the Primer CxxUtility atomic shim
(Sources/CxxUtility/CxxUtility.c).

The source is a set of free C functions over a single `_Atomic long`
storage location (the Atomic Cell), each forwarding to a C11
`stdatomic.h` operation with sequentially consistent ordering:

  long std_atomic_exchange(_Atomic long* value, long desired);
  void std_atomic_store(_Atomic long* value, long desired);
  long std_atomic_fetch_add(_Atomic long* value, long operand);
  int  std_atomic_compare_exchange_strong(_Atomic long* value,
                                          long* expected, long desired);
  int  std_atomic_is_lock_free(_Atomic long* value);
  long std_atomic_fetch_xor(_Atomic long* value);   // xor with constant 1

Shallow embedding: the cell holds a 64-bit signed integer (`long` on the
LP64 targets this package builds for), modelled as a Lean `Int` that the
operations keep inside the two's-complement range [-2^63, 2^63).
Each operation is a pure function from the cell value (plus operands) to
its result paired with the new cell value; the `void` store returns only
the new cell value.  Arithmetic that can overflow is wrapped explicitly
with `% 2^64` (two's-complement wraparound), never with fixed-width
machine types.
-/

namespace Primer

/-- 2^63 as an integer, the magnitude of the smallest 64-bit signed value. -/
def two63 : Int := 2 ^ 63

/-- 2^64 as an integer, the modulus of 64-bit two's-complement arithmetic. -/
def two64 : Int := 2 ^ 64

/-- Wrap an unbounded integer to the 64-bit two's-complement range
[-2^63, 2^63), the behaviour of C11 atomic arithmetic on a 64-bit
`_Atomic long`. -/
def wrap64 (i : Int) : Int := (i + two63) % two64 - two63

/-- The 64-bit pattern (as a natural number below 2^64) representing a
signed value in two's complement. -/
def bits64 (i : Int) : Nat := (i % two64).toNat

/-- The signed 64-bit value whose two's-complement pattern is `n`. -/
def ofBits64 (n : Nat) : Int := wrap64 (Int.ofNat n)

/-- The range of a 64-bit signed `long`: the invariant every cell value
satisfies. -/
abbrev Int64Range (i : Int) : Prop := -two63 ≤ i ∧ i < two63

/-- Embedding of `std_atomic_exchange`: `atomic_exchange(value, desired)`
returns the previous cell value and replaces it with `desired`.
Result: (returned previous value, new cell value). -/
def std_atomic_exchange (value desired : Int) : Int × Int :=
  (value, desired)

/-- Embedding of `std_atomic_store`: `atomic_store(value, desired)`
overwrites the cell; the C function is `void`, so the embedding returns
only the new cell value. -/
def std_atomic_store (value desired : Int) : Int :=
  desired

/-- Embedding of `std_atomic_fetch_add`: `atomic_fetch_add(value, operand)`
returns the previous cell value and stores the two's-complement sum.
Result: (returned previous value, new cell value). -/
def std_atomic_fetch_add (value operand : Int) : Int × Int :=
  (value, wrap64 (value + operand))

/-- Embedding of `std_atomic_compare_exchange_strong`: if the cell equals
`expected` the cell becomes `desired` and the call succeeds (the C shim
returns the `_Bool` result widened to `int` 1); otherwise the cell is
unchanged, `expected` is overwritten with the actual cell value, and the
call fails (int 0).  Result: (success, new cell value, new expected). -/
def std_atomic_compare_exchange_strong (value expected desired : Int) :
    Bool × Int × Int :=
  if value = expected then (true, desired, expected) else (false, value, value)

/-- Embedding of `std_atomic_is_lock_free`: `atomic_is_lock_free(value)`
is a platform characteristic of the `_Atomic long` type, independent of
the stored value; the platform answer is the parameter `platform`.
Result: (returned boolean, cell value after the call). -/
def std_atomic_is_lock_free (platform : Bool) (value : Int) : Bool × Int :=
  (platform, value)

/-- Embedding of `std_atomic_fetch_xor`: `atomic_fetch_xor(value, 1)` with
the operand fixed to 1 by the shim; returns the previous cell value and
stores its two's-complement pattern xor-ed with 1.
Result: (returned previous value, new cell value). -/
def std_atomic_fetch_xor (value : Int) : Int × Int :=
  (value, ofBits64 (bits64 value ^^^ 1))

/- Arithmetic facts about the wrapping helpers. -/

theorem two64_pos : (0 : Int) < two64 := by norm_num [two64]

theorem wrap64_mem_range (i : Int) : Int64Range (wrap64 i) := by
  have h1 : 0 ≤ (i + two63) % two64 := Int.emod_nonneg _ (by norm_num [two64])
  have h2 : (i + two63) % two64 < two64 := Int.emod_lt_of_pos _ two64_pos
  simp only [wrap64, Int64Range, two63, two64] at *
  omega

theorem wrap64_sub_self_emod (i : Int) : (wrap64 i - i) % two64 = 0 := by
  simp only [wrap64, two63, two64]
  omega

theorem wrap64_eq_of_mem_range (i : Int) (h : Int64Range i) : wrap64 i = i := by
  simp only [Int64Range, two63] at h
  simp only [wrap64, two63, two64]
  omega

theorem wrap64_wrap64_add (a b : Int) : wrap64 (wrap64 a + b) = wrap64 (a + b) := by
  simp only [wrap64, two63, two64]
  omega

theorem bits64_lt (i : Int) : bits64 i < 2 ^ 64 := by
  simp only [bits64, two64]
  omega

theorem bits64_ofBits64 (n : Nat) (h : n < 2 ^ 64) : bits64 (ofBits64 n) = n := by
  simp only [bits64, ofBits64, wrap64, Int.ofNat_eq_natCast, two63, two64]
  omega

theorem ofBits64_bits64 (v : Int) (h : Int64Range v) : ofBits64 (bits64 v) = v := by
  simp only [Int64Range, two63] at h
  simp only [ofBits64, bits64, wrap64, Int.ofNat_eq_natCast, two63, two64]
  omega

theorem ofBits64_mem_range (n : Nat) : Int64Range (ofBits64 n) :=
  wrap64_mem_range _

theorem xor_one_lt (a : Nat) (h : a < 2 ^ 64) : a ^^^ 1 < 2 ^ 64 :=
  Nat.bitwise_lt h (by norm_num)

/- Interleaving model for the concurrency claim: N threads each perform
fetch-add(cell, 1) K times; because every fetch-add is one indivisible
transaction on the cell, any execution is a schedule, a list of thread
identifiers giving the global order in which the individual fetch-add
calls commit.  A schedule is a run of N threads with K increments each
exactly when every identifier in it is below N and each identifier below
N occurs exactly K times. -/

/-- Run a schedule: each entry performs `std_atomic_fetch_add cell 1` for
the scheduled thread.  Returns the list of (thread, returned before-value)
in commit order, paired with the final cell value. -/
def runSchedule : List Nat → Int → List (Nat × Int) × Int
  | [], v => ([], v)
  | t :: ts, v =>
    let r := std_atomic_fetch_add v 1
    let rest := runSchedule ts r.2
    ((t, r.1) :: rest.1, rest.2)

theorem runSchedule_final (s : List Nat) (v : Int) (h : Int64Range v) :
    (runSchedule s v).2 = wrap64 (v + s.length) := by
  induction s generalizing v with
  | nil =>
    simp only [runSchedule, List.length_nil, Int.natCast_zero, add_zero]
    exact (wrap64_eq_of_mem_range v h).symm
  | cons t ts ih =>
    simp only [runSchedule, std_atomic_fetch_add, List.length_cons]
    rw [ih (wrap64 (v + 1)) (wrap64_mem_range _), wrap64_wrap64_add]
    push_cast
    ring_nf

theorem runSchedule_returns (s : List Nat) (v : Int) (h : Int64Range v) :
    (runSchedule s v).1.map Prod.snd =
      (List.range s.length).map (fun i : Nat => wrap64 (v + (i : Int))) := by
  induction s generalizing v with
  | nil => simp [runSchedule]
  | cons t ts ih =>
    simp only [runSchedule, std_atomic_fetch_add, List.length_cons,
      List.map_cons, List.range_succ_eq_map, List.map_map]
    refine List.cons_eq_cons.mpr ⟨?_, ?_⟩
    · simp only [Int.natCast_zero, add_zero]
      exact (wrap64_eq_of_mem_range v h).symm
    · rw [ih _ (wrap64_mem_range (v + 1))]
      refine List.map_congr_left ?_
      intro i hi
      simp only [Function.comp_apply]
      rw [wrap64_wrap64_add]
      push_cast
      ring_nf

theorem length_eq_sum_count (N : Nat) (s : List Nat) (h : ∀ t ∈ s, t < N) :
    s.length = ∑ t ∈ Finset.range N, s.count t := by
  induction s with
  | nil => simp
  | cons a s ih =>
    have ha : a ∈ Finset.range N :=
      Finset.mem_range.mpr (h a (List.mem_cons_self a s))
    have hs : ∀ t ∈ s, t < N := fun t ht => h t (List.mem_cons_of_mem a ht)
    simp only [List.length_cons, List.count_cons, beq_iff_eq,
      Finset.sum_add_distrib, ih hs]
    rw [Finset.sum_ite_eq (Finset.range N) a fun _ => 1, if_pos ha]

/-- Claim C8, amended: running any schedule of N threads with K
fetch-add(cell, 1) calls each, from a cell holding 0, ends with the cell
holding N*K wrapped to the 64-bit signed range — equal to N*K itself
whenever N*K is below 2^63 — and the before-values returned to the
callers are exactly 0, 1, 2, ... (wrapped) in the order the calls commit,
so every returned value is consistent with the single total order given
by the schedule. -/
theorem concurrent_fetch_add (N K : Nat) (s : List Nat)
    (hmem : ∀ t ∈ s, t < N) (hcount : ∀ t, t < N → s.count t = K) :
    (runSchedule s 0).2 = wrap64 ((N * K : Nat)) ∧
    (runSchedule s 0).1.map Prod.snd =
      (List.range (N * K)).map (fun i : Nat => wrap64 (i : Int)) ∧
    (((N * K : Nat) : Int) < two63 →
      (runSchedule s 0).2 = ((N * K : Nat) : Int)) := by
  have h0 : Int64Range 0 := by constructor <;> norm_num [two63]
  have hlen : s.length = N * K := by
    rw [length_eq_sum_count N s hmem,
      Finset.sum_congr rfl fun t ht => hcount t (Finset.mem_range.mp ht),
      Finset.sum_const, Finset.card_range, smul_eq_mul]
  refine ⟨?_, ?_, ?_⟩
  · rw [runSchedule_final s 0 h0, hlen, zero_add]
  · rw [runSchedule_returns s 0 h0, hlen]
    exact List.map_congr_left fun i _ => by rw [zero_add]
  · intro hlt
    rw [runSchedule_final s 0 h0, hlen, zero_add]
    refine wrap64_eq_of_mem_range _ ⟨?_, hlt⟩
    have hnn : (0 : Int) ≤ ((N * K : Nat) : Int) := Int.natCast_nonneg _
    have : (0 : Int) ≤ two63 := by norm_num [two63]
    omega

theorem concurrent_fetch_add_witness :
    (∀ t ∈ ([0, 1] : List Nat), t < 2) ∧
    (∀ t, t < 2 → ([0, 1] : List Nat).count t = 1) ∧
    ((runSchedule [0, 1] 0).2 = wrap64 ((2 * 1 : Nat)) ∧
     (runSchedule [0, 1] 0).1.map Prod.snd =
       (List.range (2 * 1)).map (fun i : Nat => wrap64 (i : Int)) ∧
     (((2 * 1 : Nat) : Int) < two63 →
       (runSchedule [0, 1] 0).2 = ((2 * 1 : Nat) : Int))) :=
  ⟨by decide, by decide,
   concurrent_fetch_add 2 1 [0, 1] (by decide) (by decide)⟩

/-- Claim C8 as literally stated is false: with N = 1 thread performing
K = 2^63 fetch-add(cell, 1) calls — a valid schedule of the model — the
final cell value is the wrapped value -2^63, not N*K = 2^63, because the
64-bit signed cell overflows and wraps. -/
theorem concurrent_fetch_add_overflow :
    (∀ t ∈ List.replicate (2 ^ 63) 0, t < 1) ∧
    (∀ t, t < 1 → (List.replicate (2 ^ 63) 0).count t = 2 ^ 63) ∧
    (runSchedule (List.replicate (2 ^ 63) 0) 0).2 ≠
      ((1 * 2 ^ 63 : Nat) : Int) := by
  have h0 : Int64Range 0 := by constructor <;> norm_num [two63]
  refine ⟨?_, ?_, ?_⟩
  · intro t ht
    rw [List.eq_of_mem_replicate ht]
    norm_num
  · intro t ht
    have ht0 : t = 0 := Nat.lt_one_iff.mp ht
    subst ht0
    exact List.count_replicate_self 0 (2 ^ 63)
  · rw [runSchedule_final _ 0 h0, List.length_replicate, zero_add]
    simp only [wrap64, two63, two64]
    omega

/-- Claim C3: for every initial cell value v and desired value d, exchange
returns v (the value present immediately before the replacement) and
leaves the cell holding d. -/
theorem exchange_spec (v d : Int) :
    (std_atomic_exchange v d).1 = v ∧ (std_atomic_exchange v d).2 = d :=
  ⟨rfl, rfl⟩

/-- Claim C5: for every initial cell value v and desired value d, store
overwrites the cell so that it ends holding d; the C function is void, so
there is no returned value. -/
theorem store_spec (v d : Int) : std_atomic_store v d = d :=
  rfl

/-- Claim C9: store is observationally equivalent to exchange with the
returned previous value discarded: both leave the cell in the same final
state. -/
theorem store_eq_exchange_discard (v d : Int) :
    std_atomic_store v d = (std_atomic_exchange v d).2 :=
  rfl

/-- Claim C7: the lock-free query is a pure query: it leaves the cell
value unchanged, and a repeated call on the same cell within one run (the
platform characteristic fixed) returns the same boolean. -/
theorem is_lock_free_pure (p : Bool) (v : Int) :
    (std_atomic_is_lock_free p v).2 = v ∧
    (std_atomic_is_lock_free p (std_atomic_is_lock_free p v).2).1 =
      (std_atomic_is_lock_free p v).1 :=
  ⟨rfl, rfl⟩

/-- Claim C1: compare-exchange (strong): when the cell equals the expected
value it succeeds, the cell becomes the desired value and expected is
unchanged — never a spurious failure; when the cell differs it fails, the
cell is unchanged and expected is updated to the actual cell value. -/
theorem compare_exchange_strong_spec (value expected desired : Int) :
    (value = expected →
      std_atomic_compare_exchange_strong value expected desired =
        (true, desired, expected)) ∧
    (value ≠ expected →
      std_atomic_compare_exchange_strong value expected desired =
        (false, value, value)) := by
  constructor <;> intro h <;>
    simp [std_atomic_compare_exchange_strong, h]

theorem compare_exchange_strong_spec_witness :
    (std_atomic_compare_exchange_strong 5 5 9 = (true, 9, 5)) ∧
    (std_atomic_compare_exchange_strong 7 5 9 = (false, 7, 7)) :=
  ⟨(compare_exchange_strong_spec 5 5 9).1 rfl,
   (compare_exchange_strong_spec 7 5 9).2 (by decide)⟩

/-- Claim C2: fetch-add returns the previous value v and leaves the cell
holding a value congruent to v + o modulo 2^64 inside the signed 64-bit
range — two's-complement wraparound, no overflow error (the operation is
total). -/
theorem fetch_add_spec (v o : Int) :
    (std_atomic_fetch_add v o).1 = v ∧
    ((std_atomic_fetch_add v o).2 - (v + o)) % two64 = 0 ∧
    Int64Range (std_atomic_fetch_add v o).2 :=
  ⟨rfl, wrap64_sub_self_emod (v + o), wrap64_mem_range (v + o)⟩

/-- Claim C4: fetch-xor-toggle takes no operand beyond the cell, returns
the previous value v, and leaves the cell holding the value whose 64-bit
pattern is the pattern of v exclusive-or-ed with the fixed constant 1,
still inside the signed 64-bit range. -/
theorem fetch_xor_spec (v : Int) :
    (std_atomic_fetch_xor v).1 = v ∧
    bits64 (std_atomic_fetch_xor v).2 = bits64 v ^^^ 1 ∧
    Int64Range (std_atomic_fetch_xor v).2 :=
  ⟨rfl,
   bits64_ofBits64 _ (xor_one_lt _ (bits64_lt v)),
   ofBits64_mem_range _⟩

/-- Claim C6: scenario from the spec: starting from a cell holding 10,
exchange(cell, 20) returns 10 and the cell holds 20; then
compare-exchange(expected 20, desired 30) succeeds, expected stays 20 and
the cell holds 30; then compare-exchange(expected 20, desired 99) fails,
expected is updated to 30 and the cell still holds 30. -/
theorem scenario_spec :
    std_atomic_exchange 10 20 = (10, 20) ∧
    std_atomic_compare_exchange_strong 20 20 30 = (true, 30, 20) ∧
    std_atomic_compare_exchange_strong 30 20 99 = (false, 30, 30) := by
  refine ⟨rfl, ?_, ?_⟩ <;> simp [std_atomic_compare_exchange_strong]

/-- Claim C10: starting from a cell value v in the 64-bit signed range,
applying fetch-xor-toggle twice restores the cell to v, and the second
call returns the value stored by the first call, whose pattern is the
pattern of v xor-ed with 1. -/
theorem fetch_xor_involutive (v : Int) (h : Int64Range v) :
    (std_atomic_fetch_xor (std_atomic_fetch_xor v).2).2 = v ∧
    (std_atomic_fetch_xor (std_atomic_fetch_xor v).2).1 =
      (std_atomic_fetch_xor v).2 ∧
    bits64 (std_atomic_fetch_xor (std_atomic_fetch_xor v).2).1 =
      bits64 v ^^^ 1 := by
  have hb : bits64 (std_atomic_fetch_xor v).2 = bits64 v ^^^ 1 :=
    bits64_ofBits64 _ (xor_one_lt _ (bits64_lt v))
  refine ⟨?_, rfl, hb⟩
  show ofBits64 (bits64 (ofBits64 (bits64 v ^^^ 1)) ^^^ 1) = v
  rw [bits64_ofBits64 _ (xor_one_lt _ (bits64_lt v)),
    Nat.xor_cancel_right]
  exact ofBits64_bits64 v h

theorem fetch_xor_involutive_witness :
    Int64Range 10 ∧
    ((std_atomic_fetch_xor (std_atomic_fetch_xor 10).2).2 = 10 ∧
     (std_atomic_fetch_xor (std_atomic_fetch_xor 10).2).1 =
       (std_atomic_fetch_xor 10).2 ∧
     bits64 (std_atomic_fetch_xor (std_atomic_fetch_xor 10).2).1 =
       bits64 10 ^^^ 1) :=
  ⟨by constructor <;> norm_num [two63],
   fetch_xor_involutive 10 (by constructor <;> norm_num [two63])⟩

end Primer
